import Mathlib

/-!
Shallow embedding of `src/supportFunction.v1.js` (the aggregated revision,
which the spec treats as authoritative).  Prices are modelled as exact
rationals; the JavaScript decimal literals `0.01`, `0.03`, `0.05`, `0.1`,
`0.5` become the rationals `1/100`, `3/100`, `1/20`, `1/10`, `1/2`.
`toFixed(2)` canonicalization is modelled as round-half-up to an integer
number of cents, and the JS string-keyed objects used for aggregation are
modelled as association lists with first-occurrence upsert (a JS object has
pairwise-distinct keys and preserves insertion order for non-integer keys).
-/

namespace SupportFunction

/-- Direction argument of `trendLineMatch` (the JS string `"support"` or
`"resistance"`). -/
inductive Dir where
  | support
  | resistance
deriving DecidableEq

/-- `priceData[i].lp`: the last-price of observation `i` (`0` out of bounds;
the source never reads out of bounds on nonempty input). -/
def lp (pd : List ℚ) (i : ℕ) : ℚ := pd.getD i 0

/-- `priceData[priceData.length - 1].lp`. -/
def latestPrice (pd : List ℚ) : ℚ := lp pd (pd.length - 1)

/-- `minValidPrice = latestPrice * 0.5`. -/
def minValidPrice (pd : List ℚ) : ℚ := latestPrice pd * (1 / 2)

/-- The expected trend price inside `trendLineMatch`:
`base.lp - base.lp * 0.01 * (i - baseIndex)` for support and
`base.lp + base.lp * 0.01 * (i - baseIndex)` for resistance. -/
def trendExpected (base : ℚ) (ty : Dir) (step : ℕ) : ℚ :=
  match ty with
  | .support => base - base * (1 / 100) * (step : ℚ)
  | .resistance => base + base * (1 / 100) * (step : ℚ)

/-- The counter accumulated by the loop of `trendLineMatch`: the loop visits
`i` with `baseIndex + 1 ≤ i`, `i < baseIndex + range`, `i < priceData.length`
and increments when `|actual - expected| / expected ≤ 0.03`. -/
def trendCount (pd : List ℚ) (baseIndex range : ℕ) (ty : Dir) : ℕ :=
  ((List.range pd.length).filter (fun i =>
    decide (baseIndex + 1 ≤ i ∧ i < baseIndex + range ∧
      |lp pd i - trendExpected (lp pd baseIndex) ty (i - baseIndex)| /
        trendExpected (lp pd baseIndex) ty (i - baseIndex) ≤ 3 / 100))).length

/-- `trendLineMatch(baseIndex, range, type)`: `count >= 3`. -/
def trendLineMatch (pd : List ℚ) (baseIndex range : ℕ) (ty : Dir) : Bool :=
  decide (3 ≤ trendCount pd baseIndex range ty)

/-- `actedAsResistanceBefore(index, price)`: an earlier observation `i` with
`|priceData[i].lp - price| / price ≤ 0.05` followed, before `index`, by an
observation `j` with `(priceData[i].lp - priceData[j].lp) / priceData[i].lp
≥ 0.1` (the JS early `return true` is existence). -/
def actedAsResistanceBefore (pd : List ℚ) (index : ℕ) (price : ℚ) : Bool :=
  (List.range index).any (fun i =>
    decide (|lp pd i - price| / price ≤ 1 / 20) &&
    (List.range index).any (fun j =>
      decide (i + 1 ≤ j ∧ (lp pd i - lp pd j) / lp pd i ≥ 1 / 10)))

/-- The `nearSupport` / `nearResistance` test:
`|priceData[j].lp - basePrice| / basePrice ≤ 0.05`. -/
def isTouch (pd : List ℚ) (i j : ℕ) : Bool :=
  decide (|lp pd j - lp pd i| / lp pd i ≤ 1 / 20)

/-- The inner `k` loop of support detection: some `k > j` with
`(priceData[k].lp - priceData[j].lp) / priceData[j].lp ≥ 0.1` (the loop
breaks at the first such `k`, so its effect is existence). -/
def hasBounceAfter (pd : List ℚ) (j : ℕ) : Bool :=
  (List.range pd.length).any (fun k =>
    decide (j + 1 ≤ k ∧ (lp pd k - lp pd j) / lp pd j ≥ 1 / 10))

/-- The inner `k` loop of resistance detection: some `k > j` with
`(priceData[j].lp - priceData[k].lp) / priceData[j].lp ≥ 0.1`. -/
def hasDropAfter (pd : List ℚ) (j : ℕ) : Bool :=
  (List.range pd.length).any (fun k =>
    decide (j + 1 ≤ k ∧ (lp pd j - lp pd k) / lp pd j ≥ 1 / 10))

/-- The `bounceCount` accumulated at base index `i`: one increment per touch
index `j > i` whose first qualifying bounce exists and for which
`trendLineMatch(i, 10, "support")` holds (the trend test does not depend on
`j` or `k`). -/
def bounceCount (pd : List ℚ) (i : ℕ) : ℕ :=
  ((List.range pd.length).filter (fun j =>
    decide (i + 1 ≤ j) && isTouch pd i j && hasBounceAfter pd j &&
      trendLineMatch pd i 10 .support)).length

/-- The `dropCount` accumulated at base index `i`. -/
def dropCount (pd : List ℚ) (i : ℕ) : ℕ :=
  ((List.range pd.length).filter (fun j =>
    decide (i + 1 ≤ j) && isTouch pd i j && hasDropAfter pd j &&
      trendLineMatch pd i 10 .resistance)).length

/-- `price.toFixed(2)` modelled as the canonical price in integer cents
(round half up on exact rationals). -/
def canon (q : ℚ) : ℤ := (q * 100 + 1 / 2).floor

/-- `parseFloat(zone)`: the numeric value of a canonical (cents) price. -/
def zoneVal (z : ℤ) : ℚ := (z : ℚ) / 100

/-- A raw or aggregated support record
`{zone, bounceCount, confirmedResistance}`. -/
structure SupportZone where
  zone : ℤ
  bounceCount : ℕ
  confirmedResistance : Bool
deriving DecidableEq

/-- A raw or aggregated resistance record `{zone, dropCount}`. -/
structure ResistanceZone where
  zone : ℤ
  dropCount : ℕ
deriving DecidableEq

/-- The record pushed onto `supportZones` when base index `i` is accepted. -/
def mkSupport (pd : List ℚ) (i : ℕ) : SupportZone :=
  { zone := canon (lp pd i)
    bounceCount := bounceCount pd i
    confirmedResistance := actedAsResistanceBefore pd i (lp pd i) }

/-- The record pushed onto `resistanceZones` when base index `i` is
accepted. -/
def mkResistance (pd : List ℚ) (i : ℕ) : ResistanceZone :=
  { zone := canon (lp pd i)
    dropCount := dropCount pd i }

/-- State of the main detection loop.  The pushed records are pure functions
of the accepted base index, so the zone lists are tracked as the lists of
accepted base indices (`supportZones = supportBases.map (mkSupport pd)`),
and the JS `Set`s of checked raw prices are tracked as lists in insertion
order (`Set.has`-style dedup never affects the `some` membership test). -/
structure ScanState where
  checkedSupports : List ℚ
  checkedResistances : List ℚ
  supportBases : List ℕ
  resistanceBases : List ℕ
deriving DecidableEq

/-- The empty initial state. -/
def initState : ScanState := ⟨[], [], [], []⟩

/-- `[...checked].some(p => Math.abs(p - basePrice) / basePrice < 0.05)`. -/
def skipNear (checked : List ℚ) (price : ℚ) : Bool :=
  checked.any (fun p => decide (|p - price| / price < 1 / 20))

/-- The SUPPORT DETECTION block for base index `i`. -/
def supportStep (pd : List ℚ) (s : ScanState) (i : ℕ) : ScanState :=
  if skipNear s.checkedSupports (lp pd i) then s
  else if 3 ≤ bounceCount pd i then
    { s with supportBases := s.supportBases ++ [i]
             checkedSupports := s.checkedSupports ++ [lp pd i] }
  else s

/-- The RESISTANCE DETECTION block for base index `i`. -/
def resistanceStep (pd : List ℚ) (s : ScanState) (i : ℕ) : ScanState :=
  if skipNear s.checkedResistances (lp pd i) then s
  else if 3 ≤ dropCount pd i then
    { s with resistanceBases := s.resistanceBases ++ [i]
             checkedResistances := s.checkedResistances ++ [lp pd i] }
  else s

/-- One iteration of the main loop: the ancient-zone filter
(`basePrice < minValidPrice → continue`), then support detection, then
resistance detection. -/
def scanStep (pd : List ℚ) (s : ScanState) (i : ℕ) : ScanState :=
  if lp pd i < minValidPrice pd then s
  else resistanceStep pd (supportStep pd s i) i

/-- The whole main loop over `i = 0 .. priceData.length - 1`. -/
def scan (pd : List ℚ) : ScanState :=
  (List.range pd.length).foldl (scanStep pd) initState

/-- The raw `supportZones` list produced by the main loop. -/
def supportZones (pd : List ℚ) : List SupportZone :=
  (scan pd).supportBases.map (mkSupport pd)

/-- The raw `resistanceZones` list produced by the main loop. -/
def resistanceZones (pd : List ℚ) : List ResistanceZone :=
  (scan pd).resistanceBases.map (mkResistance pd)

/-- The comparator `(a, b) => parseFloat(a.zone) - parseFloat(b.zone)` used
to sort aggregated support zones ascending. -/
def szLE (a b : SupportZone) : Prop := zoneVal a.zone ≤ zoneVal b.zone

instance : DecidableRel szLE :=
  fun a b => inferInstanceAs (Decidable (zoneVal a.zone ≤ zoneVal b.zone))

instance : IsTotal SupportZone szLE := ⟨fun _ _ => le_total _ _⟩

instance : IsTrans SupportZone szLE := ⟨fun _ _ _ => le_trans⟩

/-- The ascending comparator on resistance zones. -/
def rzLE (a b : ResistanceZone) : Prop := zoneVal a.zone ≤ zoneVal b.zone

instance : DecidableRel rzLE :=
  fun a b => inferInstanceAs (Decidable (zoneVal a.zone ≤ zoneVal b.zone))

instance : IsTotal ResistanceZone rzLE := ⟨fun _ _ => le_total _ _⟩

instance : IsTrans ResistanceZone rzLE := ⟨fun _ _ _ => le_trans⟩

/-- One step of building `aggregatedSupportMap`: a JS object keyed by the
canonical price string, modelled as an association list in insertion order
(object keys are pairwise distinct; the absent-key branch clones `s`, the
present-key branch adds the counts and ORs the flags). -/
def aggSupportStep : List SupportZone → SupportZone → List SupportZone
  | [], s => [s]
  | t :: m, s =>
    if t.zone = s.zone then
      { t with bounceCount := t.bounceCount + s.bounceCount
               confirmedResistance := t.confirmedResistance || s.confirmedResistance } :: m
    else t :: aggSupportStep m s

/-- One step of building `aggregatedResistanceMap`. -/
def aggResistanceStep : List ResistanceZone → ResistanceZone → List ResistanceZone
  | [], r => [r]
  | t :: m, r =>
    if t.zone = r.zone then
      { t with dropCount := t.dropCount + r.dropCount } :: m
    else t :: aggResistanceStep m r

/-- `aggregatedSupportZones = Object.values(aggregatedSupportMap).sort(...)`. -/
def aggregatedSupportZones (pd : List ℚ) : List SupportZone :=
  List.insertionSort szLE ((supportZones pd).foldl aggSupportStep [])

/-- `aggregatedResistanceZones = Object.values(aggregatedResistanceMap).sort(...)`. -/
def aggregatedResistanceZones (pd : List ℚ) : List ResistanceZone :=
  List.insertionSort rzLE ((resistanceZones pd).foldl aggResistanceStep [])

/-- The fixed tag of every highlighted record. -/
def overlapTag : String := "support-resistance overlap"

/-- An overlap record `{zone, supportBounceCount, resistanceDropCount, type}`.
The zone carries the support's canonical price. -/
structure OverlapZone where
  zone : ℤ
  supportBounceCount : ℕ
  resistanceDropCount : ℕ
  type : String
deriving DecidableEq

/-- The overlap test of the aggregated revision:
`Math.abs(parseFloat(support.zone) - parseFloat(resistance.zone)) /
parseFloat(support.zone) <= 0.05` (denominator the support price). -/
def overlapNear (s : SupportZone) (r : ResistanceZone) : Bool :=
  decide (|zoneVal s.zone - zoneVal r.zone| / zoneVal s.zone ≤ 1 / 20)

/-- The effect on `tempHighlights` of one matching (support, resistance)
pair: create a zero record under the support's key when absent, then add
`support.bounceCount` and `resistance.dropCount` to that key's record. -/
def upsertOverlap : List OverlapZone → SupportZone → ResistanceZone → List OverlapZone
  | [], s, r => [⟨s.zone, s.bounceCount, r.dropCount, overlapTag⟩]
  | o :: m, s, r =>
    if o.zone = s.zone then
      { o with supportBounceCount := o.supportBounceCount + s.bounceCount
               resistanceDropCount := o.resistanceDropCount + r.dropCount } :: m
    else o :: upsertOverlap m s r

/-- The inner loop over aggregated resistance zones for one support. -/
def highlightAcc (rs : List ResistanceZone) (m : List OverlapZone) (s : SupportZone) :
    List OverlapZone :=
  rs.foldl (fun acc r => if overlapNear s r then upsertOverlap acc s r else acc) m

/-- The ascending comparator on overlap zones. -/
def ozLE (a b : OverlapZone) : Prop := zoneVal a.zone ≤ zoneVal b.zone

instance : DecidableRel ozLE :=
  fun a b => inferInstanceAs (Decidable (zoneVal a.zone ≤ zoneVal b.zone))

instance : IsTotal OverlapZone ozLE := ⟨fun _ _ => le_total _ _⟩

instance : IsTrans OverlapZone ozLE := ⟨fun _ _ _ => le_trans⟩

/-- `highlightedZones = Object.values(tempHighlights).sort(...)`, as a
function of the two aggregated collections. -/
def highlightedZones (ss : List SupportZone) (rs : List ResistanceZone) :
    List OverlapZone :=
  List.insertionSort ozLE (ss.foldl (highlightAcc rs) [])

/-- The whole routine: the returned
`{supportZones, resistanceZones, highlightedZones}` of the aggregated
revision. -/
def findSupportLevels (pd : List ℚ) :
    List SupportZone × List ResistanceZone × List OverlapZone :=
  (aggregatedSupportZones pd, aggregatedResistanceZones pd,
    highlightedZones (aggregatedSupportZones pd) (aggregatedResistanceZones pd))

/-! Spec-side definitions, written from the wording of the specification
(for refinement claims) rather than from the source. -/

/-- Modelled from the spec: the expected trend price
`base.lp ∓ base.lp * 0.01 * (i - baseIndex)` (minus for support, plus for
resistance). -/
def trendExpectedSpec (base : ℚ) (ty : Dir) (step : ℕ) : ℚ :=
  match ty with
  | .support => base - base * (1 / 100) * (step : ℚ)
  | .resistance => base + base * (1 / 100) * (step : ℚ)

/-- Modelled from the spec: the number of in-range observations after the
base whose actual price is within 3% relative deviation of the expected
trend value. -/
def trendMatchCountSpec (pd : List ℚ) (b range : ℕ) (ty : Dir) : ℕ :=
  ((Finset.range pd.length).filter (fun i => b < i ∧ i < b + range ∧
    |lp pd i - trendExpectedSpec (lp pd b) ty (i - b)| /
      trendExpectedSpec (lp pd b) ty (i - b) ≤ 3 / 100)).card

/-- Modelled from the spec: a touch (price of `j` within 5% of the base
price at `i`) followed by some later bounce of at least 10% relative rise
from the touch price; at most one bounce counts per touch. -/
def qualifyingTouchCount (pd : List ℚ) (i : ℕ) : ℕ :=
  ((List.range pd.length).filter (fun j => decide (i < j ∧
    |lp pd j - lp pd i| / lp pd i ≤ 1 / 20 ∧
    ∃ k ∈ List.range pd.length, j < k ∧
      (1 : ℚ) / 10 ≤ (lp pd k - lp pd j) / lp pd j))).length

/-- Modelled from the spec: touches followed by a drop of at least 10%
relative fall from the touch price. -/
def qualifyingDropTouchCount (pd : List ℚ) (i : ℕ) : ℕ :=
  ((List.range pd.length).filter (fun j => decide (i < j ∧
    |lp pd j - lp pd i| / lp pd i ≤ 1 / 20 ∧
    ∃ k ∈ List.range pd.length, j < k ∧
      (1 : ℚ) / 10 ≤ (lp pd j - lp pd k) / lp pd j))).length

/-- Modelled from the spec: the claimed bounce counter at a base index —
touch-then-bounce pairs, each also required to pass the trend validation at
the base in the support direction. -/
def claimedBounceCount (pd : List ℚ) (i : ℕ) : ℕ :=
  ((List.range pd.length).filter (fun j => decide (i < j ∧
    |lp pd j - lp pd i| / lp pd i ≤ 1 / 20 ∧
    (∃ k ∈ List.range pd.length, j < k ∧
      (1 : ℚ) / 10 ≤ (lp pd k - lp pd j) / lp pd j) ∧
    trendLineMatch pd i 10 .support = true))).length

/-- Modelled from the spec: the claimed drop counter at a base index. -/
def claimedDropCount (pd : List ℚ) (i : ℕ) : ℕ :=
  ((List.range pd.length).filter (fun j => decide (i < j ∧
    |lp pd j - lp pd i| / lp pd i ≤ 1 / 20 ∧
    (∃ k ∈ List.range pd.length, j < k ∧
      (1 : ℚ) / 10 ≤ (lp pd j - lp pd k) / lp pd j) ∧
    trendLineMatch pd i 10 .resistance = true))).length

/-- Sum of `bounceCount` over the records of a list holding a given
canonical price (a group's total when the list is a raw zone list). -/
def bcOf (l : List SupportZone) (z : ℤ) : ℕ :=
  ((l.filter (fun t => t.zone = z)).map (fun t => t.bounceCount)).sum

/-- OR of `confirmedResistance` over the records of a list holding a given
canonical price. -/
def crOf (l : List SupportZone) (z : ℤ) : Bool :=
  (l.filter (fun t => t.zone = z)).any (fun t => t.confirmedResistance)

/-- Sum of `dropCount` over the records of a list holding a given canonical
price. -/
def dcOf (l : List ResistanceZone) (z : ℤ) : ℕ :=
  ((l.filter (fun t => t.zone = z)).map (fun t => t.dropCount)).sum

/-- Sum of `supportBounceCount` over overlap records holding a given
canonical price. -/
def sbcOf (l : List OverlapZone) (z : ℤ) : ℕ :=
  ((l.filter (fun t => t.zone = z)).map (fun t => t.supportBounceCount)).sum

/-- Sum of `resistanceDropCount` over overlap records holding a given
canonical price. -/
def rdcOf (l : List OverlapZone) (z : ℤ) : ℕ :=
  ((l.filter (fun t => t.zone = z)).map (fun t => t.resistanceDropCount)).sum

/-- The aggregated resistance zones of `rs` matching a support `s` under the
5% overlap tolerance. -/
def matchingResistances (rs : List ResistanceZone) (s : SupportZone) :
    List ResistanceZone :=
  rs.filter (fun r => overlapNear s r)

/-- A concrete input: base 100 is touched at 99, 98, 97 (each within 5%),
each touch is followed by the 10% bounce to 110, and the first three steps
follow the declining 1%-per-step trend exactly, so index 0 is accepted as a
support with three bounces. -/
def pd0 : List ℚ := [100, 99, 98, 97, 110]

/-- A one-element aggregated support collection, as in the specification's
overlap example (support "100.00", three bounces). -/
def ssEx : List SupportZone := [⟨10000, 3, false⟩]

/-- A one-element aggregated resistance collection, as in the
specification's overlap example (resistance "101.00", two drops). -/
def rsEx : List ResistanceZone := [⟨10100, 2⟩]

/-- A four-element series whose three post-base observations follow the
declining 1%-per-step trend exactly: the trend validator succeeds at base 0
although only three observations exist after it. -/
def pd4 : List ℚ := [100, 99, 98, 97]

/-! ### Helper lemmas -/

lemma length_filter_range_eq_card (n : ℕ) (p : ℕ → Prop) [DecidablePred p] :
    ((List.range n).filter (fun i => decide (p i))).length =
      ((Finset.range n).filter p).card := by
  induction n with
  | zero => simp
  | succ n ih =>
    rw [List.range_succ, Finset.range_succ, List.filter_append,
      Finset.filter_insert, List.length_append]
    by_cases h : p n
    · rw [if_pos h, Finset.card_insert_of_not_mem
        (fun hc => Finset.not_mem_range_self (Finset.mem_of_mem_filter _ hc))]
      simp [h, ih]
    · rw [if_neg h]
      simp [h, ih]

lemma trendExpectedSpec_eq : trendExpectedSpec = trendExpected := by
  funext base ty step
  cases ty <;> rfl

lemma trendCount_eq_spec (pd : List ℚ) (b range : ℕ) (ty : Dir) :
    trendCount pd b range ty = trendMatchCountSpec pd b range ty := by
  rw [trendMatchCountSpec, trendExpectedSpec_eq, ← length_filter_range_eq_card,
    trendCount]
  rfl

lemma filter_range_length_le (n i : ℕ) (p : ℕ → Bool)
    (h : ∀ j, p j = true → i + 1 ≤ j) :
    ((List.range n).filter p).length ≤ n - (i + 1) := by
  induction n with
  | zero => simp
  | succ n ih =>
    rw [List.range_succ, List.filter_append, List.length_append]
    by_cases hn : p n = true
    · have h2 := h n hn
      simp only [List.filter_cons, List.filter_nil, hn, if_pos]
      simp only [List.length_cons, List.length_nil]
      omega
    · rw [Bool.not_eq_true] at hn
      simp only [List.filter_cons, List.filter_nil, hn]
      simp only [Bool.false_eq_true, if_false, List.length_nil]
      omega

/-! ### Claims -/

/-- C4: the trend validator returns true iff at least three in-range
observations after the base index lie within 3% relative deviation of the
expected price `base.lp ∓ base.lp * 0.01 * (i - baseIndex)` (minus for
support, plus for resistance). -/
theorem trendLineMatch_contract (pd : List ℚ) (b range : ℕ) (ty : Dir) :
    trendLineMatch pd b range ty = true ↔
      3 ≤ trendMatchCountSpec pd b range ty := by
  rw [trendLineMatch, decide_eq_true_iff, trendCount_eq_spec]

/-- C3, counterexample: at base index 0 of `pd4 = [100, 99, 98, 97]` there
are fewer than four observations after the base, yet the trend validator
returns true (all three following observations match the expected trend
exactly), refuting the claim that it must return false. -/
theorem trend_edge_counterexample :
    pd4.length - (0 + 1) < 4 ∧ trendLineMatch pd4 0 10 Dir.support = true :=
  ⟨by decide, by decide!⟩

/-- C3, amended: with fewer than three observations after the base index
the match count can never reach the required 3, so the validator (range 10,
either direction) returns false. -/
theorem trend_edge_amended (pd : List ℚ) (i : ℕ) (ty : Dir)
    (h : pd.length - (i + 1) < 3) : trendLineMatch pd i 10 ty = false := by
  have hle : trendCount pd i 10 ty ≤ pd.length - (i + 1) := by
    apply filter_range_length_le
    intro j hj
    exact (of_decide_eq_true hj).1
  simp only [trendLineMatch, decide_eq_false_iff_not, not_le]
  omega

theorem trend_edge_amended_witness :
    (([100, 100] : List ℚ).length - (0 + 1) < 3) ∧
      trendLineMatch ([100, 100] : List ℚ) 0 10 Dir.support = false :=
  ⟨by decide, trend_edge_amended ([100, 100] : List ℚ) 0 Dir.support (by decide)⟩

lemma bool_eq_of_iff {a b : Bool} (h : a = true ↔ b = true) : a = b := by
  cases a <;> cases b <;> simp_all

lemma resistanceStep_supportBases (pd : List ℚ) (s : ScanState) (i : ℕ) :
    (resistanceStep pd s i).supportBases = s.supportBases := by
  unfold resistanceStep
  split
  · rfl
  · split <;> rfl

lemma resistanceStep_checkedSupports (pd : List ℚ) (s : ScanState) (i : ℕ) :
    (resistanceStep pd s i).checkedSupports = s.checkedSupports := by
  unfold resistanceStep
  split
  · rfl
  · split <;> rfl

lemma supportStep_resistanceBases (pd : List ℚ) (s : ScanState) (i : ℕ) :
    (supportStep pd s i).resistanceBases = s.resistanceBases := by
  unfold supportStep
  split
  · rfl
  · split <;> rfl

lemma supportStep_checkedResistances (pd : List ℚ) (s : ScanState) (i : ℕ) :
    (supportStep pd s i).checkedResistances = s.checkedResistances := by
  unfold supportStep
  split
  · rfl
  · split <;> rfl

lemma supportStep_cases (pd : List ℚ) (s : ScanState) (i : ℕ) :
    (supportStep pd s i = s ∧
      (skipNear s.checkedSupports (lp pd i) = true ∨ bounceCount pd i < 3)) ∨
    (supportStep pd s i =
        { s with supportBases := s.supportBases ++ [i]
                 checkedSupports := s.checkedSupports ++ [lp pd i] } ∧
      skipNear s.checkedSupports (lp pd i) = false ∧ 3 ≤ bounceCount pd i) := by
  by_cases h1 : skipNear s.checkedSupports (lp pd i) = true
  · exact Or.inl ⟨by rw [supportStep, if_pos h1], Or.inl h1⟩
  · rw [Bool.not_eq_true] at h1
    by_cases h2 : 3 ≤ bounceCount pd i
    · exact Or.inr ⟨by rw [supportStep, h1]; simp [h2], h1, h2⟩
    · exact Or.inl ⟨by rw [supportStep, h1]; simp [h2], Or.inr (by omega)⟩

lemma resistanceStep_cases (pd : List ℚ) (s : ScanState) (i : ℕ) :
    (resistanceStep pd s i = s ∧
      (skipNear s.checkedResistances (lp pd i) = true ∨ dropCount pd i < 3)) ∨
    (resistanceStep pd s i =
        { s with resistanceBases := s.resistanceBases ++ [i]
                 checkedResistances := s.checkedResistances ++ [lp pd i] } ∧
      skipNear s.checkedResistances (lp pd i) = false ∧ 3 ≤ dropCount pd i) := by
  by_cases h1 : skipNear s.checkedResistances (lp pd i) = true
  · exact Or.inl ⟨by rw [resistanceStep, if_pos h1], Or.inl h1⟩
  · rw [Bool.not_eq_true] at h1
    by_cases h2 : 3 ≤ dropCount pd i
    · exact Or.inr ⟨by rw [resistanceStep, h1]; simp [h2], h1, h2⟩
    · exact Or.inl ⟨by rw [resistanceStep, h1]; simp [h2], Or.inr (by omega)⟩

lemma scanStep_cases (pd : List ℚ) (s : ScanState) (i : ℕ) :
    (lp pd i < minValidPrice pd ∧ scanStep pd s i = s) ∨
    (minValidPrice pd ≤ lp pd i ∧
      scanStep pd s i = resistanceStep pd (supportStep pd s i) i) := by
  by_cases h : lp pd i < minValidPrice pd
  · exact Or.inl ⟨h, by rw [scanStep, if_pos h]⟩
  · exact Or.inr ⟨not_lt.mp h, by rw [scanStep, if_neg h]⟩

lemma scanStep_mem_supportBases {pd : List ℚ} {s : ScanState} {i j : ℕ}
    (hj : j ∈ (scanStep pd s i).supportBases) :
    j ∈ s.supportBases ∨
      (j = i ∧ minValidPrice pd ≤ lp pd i ∧ 3 ≤ bounceCount pd i) := by
  rcases scanStep_cases pd s i with ⟨_, he⟩ | ⟨hmin, he⟩
  · rw [he] at hj
    exact Or.inl hj
  · rw [he, resistanceStep_supportBases] at hj
    rcases supportStep_cases pd s i with ⟨hs, _⟩ | ⟨hs, _, hc⟩
    · rw [hs] at hj
      exact Or.inl hj
    · rw [hs] at hj
      simp only [List.mem_append, List.mem_singleton] at hj
      rcases hj with hj | rfl
      · exact Or.inl hj
      · exact Or.inr ⟨rfl, hmin, hc⟩

lemma scanStep_mem_resistanceBases {pd : List ℚ} {s : ScanState} {i j : ℕ}
    (hj : j ∈ (scanStep pd s i).resistanceBases) :
    j ∈ s.resistanceBases ∨
      (j = i ∧ minValidPrice pd ≤ lp pd i ∧ 3 ≤ dropCount pd i) := by
  rcases scanStep_cases pd s i with ⟨_, he⟩ | ⟨hmin, he⟩
  · rw [he] at hj
    exact Or.inl hj
  · rw [he] at hj
    rcases resistanceStep_cases pd (supportStep pd s i) i with ⟨hs, _⟩ | ⟨hs, _, hc⟩
    · rw [hs, supportStep_resistanceBases] at hj
      exact Or.inl hj
    · rw [hs] at hj
      simp only [List.mem_append, List.mem_singleton,
        supportStep_resistanceBases] at hj
      rcases hj with hj | rfl
      · exact Or.inl hj
      · exact Or.inr ⟨rfl, hmin, hc⟩

lemma scan_invariant (pd : List ℚ) (Inv : ScanState → Prop)
    (hinit : Inv initState)
    (hstep : ∀ s i, i < pd.length → Inv s → Inv (scanStep pd s i)) :
    Inv (scan pd) := by
  rw [scan]
  have key : ∀ (l : List ℕ) (s : ScanState), (∀ i ∈ l, i < pd.length) → Inv s →
      Inv (l.foldl (scanStep pd) s) := by
    intro l
    induction l with
    | nil => exact fun s _ hs => hs
    | cons a t ih =>
      intro s hmem hs
      exact ih (scanStep pd s a)
        (fun i hi => hmem i (List.mem_cons_of_mem a hi))
        (hstep s a (hmem a (List.mem_cons_self a t)) hs)
  exact key (List.range pd.length) initState (fun i hi => List.mem_range.mp hi) hinit

lemma scan_supportBases_prop (pd : List ℚ) (P : ℕ → Prop)
    (hP : ∀ i, i < pd.length → minValidPrice pd ≤ lp pd i →
      3 ≤ bounceCount pd i → P i) :
    ∀ j ∈ (scan pd).supportBases, P j := by
  refine scan_invariant pd (fun st => ∀ j ∈ st.supportBases, P j) ?_ ?_
  · intro j hj
    simp [initState] at hj
  · intro s i hi hs j hj
    rcases scanStep_mem_supportBases hj with h | ⟨rfl, hmin, hcnt⟩
    · exact hs j h
    · exact hP j hi hmin hcnt

lemma scan_resistanceBases_prop (pd : List ℚ) (P : ℕ → Prop)
    (hP : ∀ i, i < pd.length → minValidPrice pd ≤ lp pd i →
      3 ≤ dropCount pd i → P i) :
    ∀ j ∈ (scan pd).resistanceBases, P j := by
  refine scan_invariant pd (fun st => ∀ j ∈ st.resistanceBases, P j) ?_ ?_
  · intro j hj
    simp [initState] at hj
  · intro s i hi hs j hj
    rcases scanStep_mem_resistanceBases hj with h | ⟨rfl, hmin, hcnt⟩
    · exact hs j h
    · exact hP j hi hmin hcnt

lemma bounce_pred_iff (pd : List ℚ) (i j : ℕ) :
    (decide (i + 1 ≤ j) && isTouch pd i j && hasBounceAfter pd j &&
      trendLineMatch pd i 10 Dir.support) = true ↔
    (i < j ∧ |lp pd j - lp pd i| / lp pd i ≤ 1 / 20 ∧
      (∃ k ∈ List.range pd.length, j < k ∧
        (1 : ℚ) / 10 ≤ (lp pd k - lp pd j) / lp pd j) ∧
      trendLineMatch pd i 10 Dir.support = true) := by
  simp only [Bool.and_eq_true, decide_eq_true_iff, isTouch, hasBounceAfter,
    List.any_eq_true, List.mem_range, ge_iff_le]
  tauto

lemma drop_pred_iff (pd : List ℚ) (i j : ℕ) :
    (decide (i + 1 ≤ j) && isTouch pd i j && hasDropAfter pd j &&
      trendLineMatch pd i 10 Dir.resistance) = true ↔
    (i < j ∧ |lp pd j - lp pd i| / lp pd i ≤ 1 / 20 ∧
      (∃ k ∈ List.range pd.length, j < k ∧
        (1 : ℚ) / 10 ≤ (lp pd j - lp pd k) / lp pd j) ∧
      trendLineMatch pd i 10 Dir.resistance = true) := by
  simp only [Bool.and_eq_true, decide_eq_true_iff, isTouch, hasDropAfter,
    List.any_eq_true, List.mem_range, ge_iff_le]
  tauto

lemma bounceCount_eq_claimed (pd : List ℚ) (i : ℕ) :
    bounceCount pd i = claimedBounceCount pd i := by
  rw [bounceCount, claimedBounceCount]
  refine congrArg List.length (List.filter_congr fun j _ => ?_)
  apply bool_eq_of_iff
  rw [decide_eq_true_iff]
  exact bounce_pred_iff pd i j

lemma dropCount_eq_claimed (pd : List ℚ) (i : ℕ) :
    dropCount pd i = claimedDropCount pd i := by
  rw [dropCount, claimedDropCount]
  refine congrArg List.length (List.filter_congr fun j _ => ?_)
  apply bool_eq_of_iff
  rw [decide_eq_true_iff]
  exact drop_pred_iff pd i j

lemma bounceCount_factor (pd : List ℚ) (i : ℕ) :
    bounceCount pd i = if trendLineMatch pd i 10 Dir.support = true
      then qualifyingTouchCount pd i else 0 := by
  rw [bounceCount_eq_claimed]
  by_cases ht : trendLineMatch pd i 10 Dir.support = true
  · rw [if_pos ht, claimedBounceCount, qualifyingTouchCount]
    refine congrArg List.length (List.filter_congr fun j _ => ?_)
    apply bool_eq_of_iff
    simp only [decide_eq_true_iff, ht]
    tauto
  · rw [if_neg ht, claimedBounceCount, List.length_eq_zero, List.filter_eq_nil_iff]
    intro j _ hc
    exact ht (of_decide_eq_true hc).2.2.2

lemma dropCount_factor (pd : List ℚ) (i : ℕ) :
    dropCount pd i = if trendLineMatch pd i 10 Dir.resistance = true
      then qualifyingDropTouchCount pd i else 0 := by
  rw [dropCount_eq_claimed]
  by_cases ht : trendLineMatch pd i 10 Dir.resistance = true
  · rw [if_pos ht, claimedDropCount, qualifyingDropTouchCount]
    refine congrArg List.length (List.filter_congr fun j _ => ?_)
    apply bool_eq_of_iff
    simp only [decide_eq_true_iff, ht]
    tauto
  · rw [if_neg ht, claimedDropCount, List.length_eq_zero, List.filter_eq_nil_iff]
    intro j _ hc
    exact ht (of_decide_eq_true hc).2.2.2

lemma count_three_bound (n i : ℕ) (p : ℕ → Bool)
    (h3 : 3 ≤ ((List.range n).filter p).length)
    (hlow : ∀ j, p j = true → i + 1 ≤ j)
    (hnext : ∀ j, p j = true → ∃ k, k < n ∧ j + 1 ≤ k) :
    i + 4 < n := by
  set l := (List.range n).filter p with hl
  have hpair : l.Pairwise (· < ·) :=
    List.Pairwise.sublist (List.filter_sublist _) (List.pairwise_lt_range n)
  have h0 : 0 < l.length := by omega
  have h1 : 1 < l.length := by omega
  have h2 : 2 < l.length := by omega
  have hmono := List.pairwise_iff_get.mp hpair
  have g01 : l.get ⟨0, h0⟩ < l.get ⟨1, h1⟩ :=
    hmono ⟨0, h0⟩ ⟨1, h1⟩ (by simp [Fin.lt_def])
  have g12 : l.get ⟨1, h1⟩ < l.get ⟨2, h2⟩ :=
    hmono ⟨1, h1⟩ ⟨2, h2⟩ (by simp [Fin.lt_def])
  have hm0 : l.get ⟨0, h0⟩ ∈ l := l.get_mem _ _
  have hm2 : l.get ⟨2, h2⟩ ∈ l := l.get_mem _ _
  have hp0 := (List.mem_filter.mp hm0).2
  have hp2 := (List.mem_filter.mp hm2).2
  have hlow0 := hlow _ hp0
  obtain ⟨k, hk, hjk⟩ := hnext _ hp2
  omega

lemma bounce_three_bound (pd : List ℚ) (i : ℕ) (h : 3 ≤ bounceCount pd i) :
    i + 4 < pd.length := by
  refine count_three_bound pd.length i _ h ?_ ?_
  · intro j hj
    exact ((bounce_pred_iff pd i j).mp hj).1
  · intro j hj
    obtain ⟨_, _, ⟨k, hk, hjk, _⟩, _⟩ := (bounce_pred_iff pd i j).mp hj
    exact ⟨k, List.mem_range.mp hk, hjk⟩

lemma drop_three_bound (pd : List ℚ) (i : ℕ) (h : 3 ≤ dropCount pd i) :
    i + 4 < pd.length := by
  refine count_three_bound pd.length i _ h ?_ ?_
  · intro j hj
    exact ((drop_pred_iff pd i j).mp hj).1
  · intro j hj
    obtain ⟨_, _, ⟨k, hk, hjk, _⟩, _⟩ := (drop_pred_iff pd i j).mp hj
    exact ⟨k, List.mem_range.mp hk, hjk⟩

/-- C6: no support or resistance zone is accepted at a base price below 50%
of the last observation's price; the filter discards such candidates before
either detection path runs. -/
theorem ancient_zone_filter (pd : List ℚ) :
    (∀ i ∈ (scan pd).supportBases, minValidPrice pd ≤ lp pd i) ∧
    (∀ i ∈ (scan pd).resistanceBases, minValidPrice pd ≤ lp pd i) :=
  ⟨scan_supportBases_prop pd _ (fun _ _ hmin _ => hmin),
   scan_resistanceBases_prop pd _ (fun _ _ hmin _ => hmin)⟩

theorem ancient_zone_filter_witness : minValidPrice pd0 ≤ lp pd0 0 :=
  (ancient_zone_filter pd0).1 0 (by decide!)

/-- C8: the trend validation depends only on the base index, so the bounce
(resp. drop) counter is all-or-nothing — `0` when the trend validation at
the base fails and the full touch-then-reversal count when it passes — and
every accepted support (resp. resistance) base passes the validation in its
direction. -/
theorem trend_gating (pd : List ℚ) :
    (∀ i, bounceCount pd i = if trendLineMatch pd i 10 Dir.support = true
      then qualifyingTouchCount pd i else 0) ∧
    (∀ i, dropCount pd i = if trendLineMatch pd i 10 Dir.resistance = true
      then qualifyingDropTouchCount pd i else 0) ∧
    (∀ i ∈ (scan pd).supportBases, trendLineMatch pd i 10 Dir.support = true) ∧
    (∀ i ∈ (scan pd).resistanceBases, trendLineMatch pd i 10 Dir.resistance = true) := by
  refine ⟨bounceCount_factor pd, dropCount_factor pd, ?_, ?_⟩
  · refine scan_supportBases_prop pd _ fun i _ _ hcnt => ?_
    by_contra ht
    rw [bounceCount_factor, if_neg ht] at hcnt
    omega
  · refine scan_resistanceBases_prop pd _ fun i _ _ hcnt => ?_
    by_contra ht
    rw [dropCount_factor, if_neg ht] at hcnt
    omega

theorem trend_gating_witness : trendLineMatch pd0 0 10 Dir.support = true :=
  (trend_gating pd0).2.2.1 0 (by decide!)

/-- C9: a bounce (or drop) count of at least 3 needs three distinct touch
indices after the base and a further reversal observation after the last
touch, so no zone is ever accepted at one of the last four indices. -/
theorem end_truncation (pd : List ℚ) :
    (∀ i ∈ (scan pd).supportBases, i + 4 < pd.length) ∧
    (∀ i ∈ (scan pd).resistanceBases, i + 4 < pd.length) :=
  ⟨scan_supportBases_prop pd _ (fun i _ _ hc => bounce_three_bound pd i hc),
   scan_resistanceBases_prop pd _ (fun i _ _ hc => drop_three_bound pd i hc)⟩

theorem end_truncation_witness : (0 : ℕ) + 4 < pd0.length :=
  (end_truncation pd0).1 0 (by decide!)

/-- C1: for a base index that survives the ancient-zone filter and is not
within 5% relative tolerance of any previously accepted support base price,
the support path counts exactly the touch-then-bounce pairs gated by the
trend validation at the base, and a support record (canonical price, that
count, and the historical-resistance flag) is accepted — with the raw base
price added to the proximity-dedup set — iff that count reaches 3. -/
theorem support_scan_contract (pd : List ℚ) (s : ScanState) (i : ℕ)
    (hmin : minValidPrice pd ≤ lp pd i)
    (hded : ∀ p ∈ s.checkedSupports, ¬ |p - lp pd i| / lp pd i ≤ 1 / 20) :
    bounceCount pd i = claimedBounceCount pd i ∧
    mkSupport pd i = ⟨canon (lp pd i), claimedBounceCount pd i,
      actedAsResistanceBefore pd i (lp pd i)⟩ ∧
    ((scanStep pd s i).supportBases = s.supportBases ++ [i] ↔
      3 ≤ claimedBounceCount pd i) ∧
    ((scanStep pd s i).checkedSupports = s.checkedSupports ++ [lp pd i] ↔
      3 ≤ claimedBounceCount pd i) ∧
    (claimedBounceCount pd i < 3 →
      (scanStep pd s i).supportBases = s.supportBases ∧
      (scanStep pd s i).checkedSupports = s.checkedSupports) := by
  have heq := bounceCount_eq_claimed pd i
  have hskip : skipNear s.checkedSupports (lp pd i) = false := by
    rw [skipNear, List.any_eq_false]
    intro p hp hc
    exact hded p hp (le_of_lt (of_decide_eq_true hc))
  have hscan : scanStep pd s i = resistanceStep pd (supportStep pd s i) i := by
    rw [scanStep, if_neg (not_lt.mpr hmin)]
  refine ⟨heq, by rw [mkSupport, heq], ?_⟩
  rcases supportStep_cases pd s i with ⟨hstep, hdis⟩ | ⟨hstep, _, hcnt⟩
  · have hlt : claimedBounceCount pd i < 3 := by
      rcases hdis with h | h
      · rw [hskip] at h
        exact absurd h (by simp)
      · omega
    rw [hscan, resistanceStep_supportBases, resistanceStep_checkedSupports, hstep]
    refine ⟨iff_of_false ?_ (by omega), iff_of_false ?_ (by omega),
      fun _ => ⟨rfl, rfl⟩⟩
    · intro h
      have := congrArg List.length h
      simp at this
    · intro h
      have := congrArg List.length h
      simp at this
  · have hge : 3 ≤ claimedBounceCount pd i := heq ▸ hcnt
    rw [hscan, resistanceStep_supportBases, resistanceStep_checkedSupports, hstep]
    exact ⟨iff_of_true rfl hge, iff_of_true rfl hge,
      fun h => absurd hge (by omega)⟩

theorem support_scan_contract_witness :
    minValidPrice pd0 ≤ lp pd0 0 ∧
      (scanStep pd0 initState 0).supportBases = initState.supportBases ++ [0] :=
  ⟨by decide!,
    ((support_scan_contract pd0 initState 0 (by decide!)
      (by intro p hp; simp [initState] at hp)).2.2.1).mpr (by decide!)⟩

/-- C7: the historical-resistance check returns true iff some earlier
observation lies within 5% relative tolerance of the candidate price
(denominator the candidate price) and some observation strictly between
them and the index dropped at least 10% below that earlier touch price
(relative to the touch price); the result is the `confirmedResistance`
flag of the emitted support record. -/
theorem actedAsResistanceBefore_contract (pd : List ℚ) (index : ℕ) (price : ℚ) :
    (actedAsResistanceBefore pd index price = true ↔
      ∃ i, i < index ∧ |lp pd i - price| / price ≤ 1 / 20 ∧
        ∃ j, i < j ∧ j < index ∧ 1 / 10 ≤ (lp pd i - lp pd j) / lp pd i) ∧
    ∀ i : ℕ, (mkSupport pd i).confirmedResistance =
      actedAsResistanceBefore pd i (lp pd i) := by
  refine ⟨?_, fun i => rfl⟩
  rw [actedAsResistanceBefore, List.any_eq_true]
  constructor
  · rintro ⟨i, hi, hc⟩
    rw [Bool.and_eq_true] at hc
    obtain ⟨h1, h2⟩ := hc
    rw [List.any_eq_true] at h2
    obtain ⟨j, hj, hcj⟩ := h2
    have h1b := of_decide_eq_true h1
    have hcj2 := of_decide_eq_true hcj
    exact ⟨i, List.mem_range.mp hi, h1b,
      j, hcj2.1, List.mem_range.mp hj, hcj2.2⟩
  · rintro ⟨i, hi, h1, j, hij, hj, h2⟩
    refine ⟨i, List.mem_range.mpr hi, ?_⟩
    rw [Bool.and_eq_true]
    exact ⟨decide_eq_true h1,
      List.any_eq_true.mpr ⟨j, List.mem_range.mpr hj, decide_eq_true ⟨hij, h2⟩⟩⟩

lemma filter_eq_singleton_of_nodup_keys {β : Type} (key : β → ℤ)
    [DecidableEq β] {l : List β} (h : (l.map key).Nodup) {t : β} (ht : t ∈ l) :
    l.filter (fun u => key u = key t) = [t] := by
  induction l with
  | nil => cases ht
  | cons u l ih =>
    rw [List.map_cons, List.nodup_cons] at h
    rcases List.mem_cons.mp ht with rfl | htl
    · rw [List.filter_cons, if_pos (by simp)]
      have hnil : l.filter (fun v => key v = key t) = [] := by
        rw [List.filter_eq_nil_iff]
        intro v hv hc
        exact h.1 (of_decide_eq_true hc ▸ List.mem_map_of_mem key hv)
      rw [hnil]
    · rw [List.filter_cons, if_neg ?_]
      · exact ih h.2 htl
      · simp only [decide_eq_true_iff]
        intro hc
        exact h.1 (hc ▸ List.mem_map_of_mem key htl)

lemma zoneVal_lt_iff {a b : ℤ} : zoneVal a < zoneVal b ↔ a < b := by
  rw [zoneVal, zoneVal, div_lt_div_iff_of_pos_right (by norm_num : (0:ℚ) < 100)]
  exact Int.cast_lt

lemma zoneVal_eq_iff {a b : ℤ} : zoneVal a = zoneVal b ↔ a = b := by
  rw [zoneVal, zoneVal]
  constructor
  · intro h
    field_simp at h
    exact_mod_cast h
  · rintro rfl
    rfl

lemma sz_pairwise_strict {l : List SupportZone}
    (hs : l.Pairwise (fun a b => zoneVal a.zone ≤ zoneVal b.zone))
    (hn : (l.map (fun t => t.zone)).Nodup) :
    l.Pairwise (fun a b => zoneVal a.zone < zoneVal b.zone) := by
  have hne : l.Pairwise (fun a b => a.zone ≠ b.zone) := List.pairwise_map.mp hn
  have hand := List.pairwise_and_iff.mpr ⟨hs, hne⟩
  exact hand.imp fun hab =>
    lt_of_le_of_ne hab.1 fun hc => hab.2 (zoneVal_eq_iff.mp hc)

lemma rz_pairwise_strict {l : List ResistanceZone}
    (hs : l.Pairwise (fun a b => zoneVal a.zone ≤ zoneVal b.zone))
    (hn : (l.map (fun t => t.zone)).Nodup) :
    l.Pairwise (fun a b => zoneVal a.zone < zoneVal b.zone) := by
  have hne : l.Pairwise (fun a b => a.zone ≠ b.zone) := List.pairwise_map.mp hn
  have hand := List.pairwise_and_iff.mpr ⟨hs, hne⟩
  exact hand.imp fun hab =>
    lt_of_le_of_ne hab.1 fun hc => hab.2 (zoneVal_eq_iff.mp hc)

lemma oz_pairwise_strict {l : List OverlapZone}
    (hs : l.Pairwise (fun a b => zoneVal a.zone ≤ zoneVal b.zone))
    (hn : (l.map (fun t => t.zone)).Nodup) :
    l.Pairwise (fun a b => zoneVal a.zone < zoneVal b.zone) := by
  have hne : l.Pairwise (fun a b => a.zone ≠ b.zone) := List.pairwise_map.mp hn
  have hand := List.pairwise_and_iff.mpr ⟨hs, hne⟩
  exact hand.imp fun hab =>
    lt_of_le_of_ne hab.1 fun hc => hab.2 (zoneVal_eq_iff.mp hc)

lemma bcOf_nil (z : ℤ) : bcOf [] z = 0 := rfl

lemma crOf_nil (z : ℤ) : crOf [] z = false := rfl

lemma dcOf_nil (z : ℤ) : dcOf [] z = 0 := rfl

lemma bcOf_cons (t : SupportZone) (m : List SupportZone) (z : ℤ) :
    bcOf (t :: m) z = (if t.zone = z then t.bounceCount else 0) + bcOf m z := by
  by_cases h : t.zone = z <;> simp [bcOf, List.filter_cons, h]

lemma crOf_cons (t : SupportZone) (m : List SupportZone) (z : ℤ) :
    crOf (t :: m) z =
      ((if t.zone = z then t.confirmedResistance else false) || crOf m z) := by
  by_cases h : t.zone = z <;> simp [crOf, List.filter_cons, h]

lemma dcOf_cons (t : ResistanceZone) (m : List ResistanceZone) (z : ℤ) :
    dcOf (t :: m) z = (if t.zone = z then t.dropCount else 0) + dcOf m z := by
  by_cases h : t.zone = z <;> simp [dcOf, List.filter_cons, h]

lemma aggSupportStep_zones (m : List SupportZone) (s : SupportZone) :
    (aggSupportStep m s).map (fun t => t.zone) =
      if s.zone ∈ m.map (fun t => t.zone) then m.map (fun t => t.zone)
      else m.map (fun t => t.zone) ++ [s.zone] := by
  induction m with
  | nil => simp [aggSupportStep]
  | cons t m ih =>
    by_cases h : t.zone = s.zone
    · simp only [aggSupportStep, if_pos h, List.map_cons]
      rw [if_pos (by simp [h])]
    · simp only [aggSupportStep, if_neg h, List.map_cons, ih]
      by_cases hm : s.zone ∈ m.map (fun t => t.zone)
      · rw [if_pos hm, if_pos (by simp [hm])]
      · have hnotin : s.zone ∉ t.zone :: m.map (fun t => t.zone) := by
          simp only [List.mem_cons]
          rintro (hc | hc)
          · exact h hc.symm
          · exact hm hc
        rw [if_neg hm, if_neg hnotin]
        simp

lemma bcOf_aggSupportStep (m : List SupportZone) (s : SupportZone) (z : ℤ) :
    bcOf (aggSupportStep m s) z =
      bcOf m z + (if s.zone = z then s.bounceCount else 0) := by
  induction m with
  | nil => by_cases h : s.zone = z <;> simp [aggSupportStep, bcOf, List.filter_cons, h]
  | cons t m ih =>
    by_cases h : t.zone = s.zone
    · simp only [aggSupportStep, if_pos h, bcOf_cons]
      by_cases hz : t.zone = z
      · have hsz : s.zone = z := h ▸ hz
        simp only [if_pos hz, if_pos hsz]
        omega
      · have hsz : ¬ s.zone = z := fun hc => hz (h.trans hc)
        simp only [if_neg hz, if_neg hsz]
        omega
    · simp only [aggSupportStep, if_neg h, bcOf_cons, ih]
      omega

lemma crOf_aggSupportStep (m : List SupportZone) (s : SupportZone) (z : ℤ) :
    crOf (aggSupportStep m s) z =
      (crOf m z || (if s.zone = z then s.confirmedResistance else false)) := by
  induction m with
  | nil => by_cases h : s.zone = z <;> simp [aggSupportStep, crOf, List.filter_cons, h]
  | cons t m ih =>
    by_cases h : t.zone = s.zone
    · simp only [aggSupportStep, if_pos h, crOf_cons]
      by_cases hz : t.zone = z
      · have hsz : s.zone = z := h ▸ hz
        simp only [if_pos hz, if_pos hsz]
        cases t.confirmedResistance <;> cases s.confirmedResistance <;> simp
      · have hsz : ¬ s.zone = z := fun hc => hz (h.trans hc)
        simp only [if_neg hz, if_neg hsz]
        simp
    · simp only [aggSupportStep, if_neg h, crOf_cons, ih, Bool.or_assoc]

lemma aggResistanceStep_zones (m : List ResistanceZone) (r : ResistanceZone) :
    (aggResistanceStep m r).map (fun t => t.zone) =
      if r.zone ∈ m.map (fun t => t.zone) then m.map (fun t => t.zone)
      else m.map (fun t => t.zone) ++ [r.zone] := by
  induction m with
  | nil => simp [aggResistanceStep]
  | cons t m ih =>
    by_cases h : t.zone = r.zone
    · simp only [aggResistanceStep, if_pos h, List.map_cons]
      rw [if_pos (by simp [h])]
    · simp only [aggResistanceStep, if_neg h, List.map_cons, ih]
      by_cases hm : r.zone ∈ m.map (fun t => t.zone)
      · rw [if_pos hm, if_pos (by simp [hm])]
      · have hnotin : r.zone ∉ t.zone :: m.map (fun t => t.zone) := by
          simp only [List.mem_cons]
          rintro (hc | hc)
          · exact h hc.symm
          · exact hm hc
        rw [if_neg hm, if_neg hnotin]
        simp

lemma dcOf_aggResistanceStep (m : List ResistanceZone) (r : ResistanceZone) (z : ℤ) :
    dcOf (aggResistanceStep m r) z =
      dcOf m z + (if r.zone = z then r.dropCount else 0) := by
  induction m with
  | nil => by_cases h : r.zone = z <;> simp [aggResistanceStep, dcOf, List.filter_cons, h]
  | cons t m ih =>
    by_cases h : t.zone = r.zone
    · simp only [aggResistanceStep, if_pos h, dcOf_cons]
      by_cases hz : t.zone = z
      · have hsz : r.zone = z := h ▸ hz
        simp only [if_pos hz, if_pos hsz]
        omega
      · have hsz : ¬ r.zone = z := fun hc => hz (h.trans hc)
        simp only [if_neg hz, if_neg hsz]
        omega
    · simp only [aggResistanceStep, if_neg h, dcOf_cons, ih]
      omega

lemma aggSupport_foldl_zones_mem (l : List SupportZone) (acc : List SupportZone)
    (z : ℤ) :
    z ∈ ((l.foldl aggSupportStep acc).map (fun t => t.zone)) ↔
      z ∈ acc.map (fun t => t.zone) ∨ z ∈ l.map (fun t => t.zone) := by
  induction l generalizing acc with
  | nil => simp
  | cons s l ih =>
    rw [List.foldl_cons, ih, aggSupportStep_zones, List.map_cons, List.mem_cons]
    by_cases h : s.zone ∈ acc.map (fun t => t.zone)
    · rw [if_pos h]
      constructor
      · rintro (h1 | h2)
        · exact Or.inl h1
        · exact Or.inr (Or.inr h2)
      · rintro (h1 | rfl | h2)
        · exact Or.inl h1
        · exact Or.inl h
        · exact Or.inr h2
    · rw [if_neg h, List.mem_append, List.mem_singleton]
      tauto

lemma aggSupport_foldl_nodup (l : List SupportZone) (acc : List SupportZone)
    (h : (acc.map (fun t => t.zone)).Nodup) :
    ((l.foldl aggSupportStep acc).map (fun t => t.zone)).Nodup := by
  induction l generalizing acc with
  | nil => exact h
  | cons s l ih =>
    rw [List.foldl_cons]
    apply ih
    rw [aggSupportStep_zones]
    by_cases hm : s.zone ∈ acc.map (fun t => t.zone)
    · rw [if_pos hm]
      exact h
    · rw [if_neg hm]
      simp [List.nodup_append, h, hm]

lemma bcOf_foldl (l : List SupportZone) (acc : List SupportZone) (z : ℤ) :
    bcOf (l.foldl aggSupportStep acc) z = bcOf acc z + bcOf l z := by
  induction l generalizing acc with
  | nil => simp [bcOf]
  | cons s l ih =>
    rw [List.foldl_cons, ih, bcOf_aggSupportStep, bcOf_cons]
    omega

lemma crOf_foldl (l : List SupportZone) (acc : List SupportZone) (z : ℤ) :
    crOf (l.foldl aggSupportStep acc) z = (crOf acc z || crOf l z) := by
  induction l generalizing acc with
  | nil => simp [crOf]
  | cons s l ih =>
    rw [List.foldl_cons, ih, crOf_aggSupportStep, crOf_cons, Bool.or_assoc]

lemma aggResistance_foldl_zones_mem (l : List ResistanceZone)
    (acc : List ResistanceZone) (z : ℤ) :
    z ∈ ((l.foldl aggResistanceStep acc).map (fun t => t.zone)) ↔
      z ∈ acc.map (fun t => t.zone) ∨ z ∈ l.map (fun t => t.zone) := by
  induction l generalizing acc with
  | nil => simp
  | cons s l ih =>
    rw [List.foldl_cons, ih, aggResistanceStep_zones, List.map_cons, List.mem_cons]
    by_cases h : s.zone ∈ acc.map (fun t => t.zone)
    · rw [if_pos h]
      constructor
      · rintro (h1 | h2)
        · exact Or.inl h1
        · exact Or.inr (Or.inr h2)
      · rintro (h1 | rfl | h2)
        · exact Or.inl h1
        · exact Or.inl h
        · exact Or.inr h2
    · rw [if_neg h, List.mem_append, List.mem_singleton]
      tauto

lemma aggResistance_foldl_nodup (l : List ResistanceZone)
    (acc : List ResistanceZone) (h : (acc.map (fun t => t.zone)).Nodup) :
    ((l.foldl aggResistanceStep acc).map (fun t => t.zone)).Nodup := by
  induction l generalizing acc with
  | nil => exact h
  | cons s l ih =>
    rw [List.foldl_cons]
    apply ih
    rw [aggResistanceStep_zones]
    by_cases hm : s.zone ∈ acc.map (fun t => t.zone)
    · rw [if_pos hm]
      exact h
    · rw [if_neg hm]
      simp [List.nodup_append, h, hm]

lemma dcOf_foldl (l : List ResistanceZone) (acc : List ResistanceZone) (z : ℤ) :
    dcOf (l.foldl aggResistanceStep acc) z = dcOf acc z + dcOf l z := by
  induction l generalizing acc with
  | nil => simp [dcOf]
  | cons s l ih =>
    rw [List.foldl_cons, ih, dcOf_aggResistanceStep, dcOf_cons]
    omega

/-- C5: the aggregator produces one record per distinct canonical price —
key sets preserved, no duplicate keys — with each support record's
`bounceCount` the sum and `confirmedResistance` the OR over its group, each
resistance record's `dropCount` the sum over its group, and both aggregated
collections strictly sorted ascending by numeric price. -/
theorem aggregation_contract (pd : List ℚ) :
    (((aggregatedSupportZones pd).map (fun t => t.zone)).Nodup ∧
      (∀ z : ℤ, z ∈ (aggregatedSupportZones pd).map (fun t => t.zone) ↔
        z ∈ (supportZones pd).map (fun t => t.zone)) ∧
      (∀ t ∈ aggregatedSupportZones pd,
        t.bounceCount = bcOf (supportZones pd) t.zone ∧
        t.confirmedResistance = crOf (supportZones pd) t.zone) ∧
      (aggregatedSupportZones pd).Pairwise
        (fun a b => zoneVal a.zone < zoneVal b.zone)) ∧
    (((aggregatedResistanceZones pd).map (fun t => t.zone)).Nodup ∧
      (∀ z : ℤ, z ∈ (aggregatedResistanceZones pd).map (fun t => t.zone) ↔
        z ∈ (resistanceZones pd).map (fun t => t.zone)) ∧
      (∀ t ∈ aggregatedResistanceZones pd,
        t.dropCount = dcOf (resistanceZones pd) t.zone) ∧
      (aggregatedResistanceZones pd).Pairwise
        (fun a b => zoneVal a.zone < zoneVal b.zone)) := by
  constructor
  · have hperm : List.Perm (aggregatedSupportZones pd)
        ((supportZones pd).foldl aggSupportStep []) :=
      List.perm_insertionSort szLE _
    have hpermmap := hperm.map (fun t => t.zone)
    have hnd0 : (((supportZones pd).foldl aggSupportStep []).map
        (fun t => t.zone)).Nodup :=
      aggSupport_foldl_nodup _ [] (by simp)
    have hnd : ((aggregatedSupportZones pd).map (fun t => t.zone)).Nodup :=
      hpermmap.nodup_iff.mpr hnd0
    refine ⟨hnd, ?_, ?_, ?_⟩
    · intro z
      rw [hpermmap.mem_iff, aggSupport_foldl_zones_mem]
      simp
    · intro t ht
      have htf : t ∈ (supportZones pd).foldl aggSupportStep [] :=
        hperm.mem_iff.mp ht
      have hsing := filter_eq_singleton_of_nodup_keys (fun u => u.zone) hnd0 htf
      have hbc : bcOf ((supportZones pd).foldl aggSupportStep []) t.zone =
          t.bounceCount := by
        rw [bcOf, hsing]
        simp
      have hcr : crOf ((supportZones pd).foldl aggSupportStep []) t.zone =
          t.confirmedResistance := by
        rw [crOf, hsing]
        simp
      have hb2 := bcOf_foldl (supportZones pd) [] t.zone
      have hc2 := crOf_foldl (supportZones pd) [] t.zone
      rw [hbc] at hb2
      rw [hcr] at hc2
      rw [bcOf_nil, Nat.zero_add] at hb2
      rw [crOf_nil, Bool.false_or] at hc2
      exact ⟨hb2, hc2⟩
    · have hsorted : (aggregatedSupportZones pd).Pairwise szLE :=
        List.sorted_insertionSort szLE _
      have hsorted2 : (aggregatedSupportZones pd).Pairwise
          (fun a b => zoneVal a.zone ≤ zoneVal b.zone) :=
        hsorted.imp (fun hab => hab)
      exact sz_pairwise_strict hsorted2 hnd
  · have hperm : List.Perm (aggregatedResistanceZones pd)
        ((resistanceZones pd).foldl aggResistanceStep []) :=
      List.perm_insertionSort rzLE _
    have hpermmap := hperm.map (fun t => t.zone)
    have hnd0 : (((resistanceZones pd).foldl aggResistanceStep []).map
        (fun t => t.zone)).Nodup :=
      aggResistance_foldl_nodup _ [] (by simp)
    have hnd : ((aggregatedResistanceZones pd).map (fun t => t.zone)).Nodup :=
      hpermmap.nodup_iff.mpr hnd0
    refine ⟨hnd, ?_, ?_, ?_⟩
    · intro z
      rw [hpermmap.mem_iff, aggResistance_foldl_zones_mem]
      simp
    · intro t ht
      have htf : t ∈ (resistanceZones pd).foldl aggResistanceStep [] :=
        hperm.mem_iff.mp ht
      have hsing := filter_eq_singleton_of_nodup_keys (fun u => u.zone) hnd0 htf
      have hdc : dcOf ((resistanceZones pd).foldl aggResistanceStep []) t.zone =
          t.dropCount := by
        rw [dcOf, hsing]
        simp
      have hd2 := dcOf_foldl (resistanceZones pd) [] t.zone
      rw [hdc] at hd2
      rw [dcOf_nil, Nat.zero_add] at hd2
      exact hd2
    · have hsorted : (aggregatedResistanceZones pd).Pairwise rzLE :=
        List.sorted_insertionSort rzLE _
      have hsorted2 : (aggregatedResistanceZones pd).Pairwise
          (fun a b => zoneVal a.zone ≤ zoneVal b.zone) :=
        hsorted.imp (fun hab => hab)
      exact rz_pairwise_strict hsorted2 hnd

theorem aggregation_contract_witness :
    ((aggregatedSupportZones pd0).map (fun t => t.zone)).Nodup :=
  (aggregation_contract pd0).1.1

lemma sbcOf_cons (t : OverlapZone) (m : List OverlapZone) (z : ℤ) :
    sbcOf (t :: m) z =
      (if t.zone = z then t.supportBounceCount else 0) + sbcOf m z := by
  by_cases h : t.zone = z <;> simp [sbcOf, List.filter_cons, h]

lemma rdcOf_cons (t : OverlapZone) (m : List OverlapZone) (z : ℤ) :
    rdcOf (t :: m) z =
      (if t.zone = z then t.resistanceDropCount else 0) + rdcOf m z := by
  by_cases h : t.zone = z <;> simp [rdcOf, List.filter_cons, h]

lemma upsertOverlap_zones (m : List OverlapZone) (s : SupportZone)
    (r : ResistanceZone) :
    (upsertOverlap m s r).map (fun t => t.zone) =
      if s.zone ∈ m.map (fun t => t.zone) then m.map (fun t => t.zone)
      else m.map (fun t => t.zone) ++ [s.zone] := by
  induction m with
  | nil => simp [upsertOverlap]
  | cons o m ih =>
    by_cases h : o.zone = s.zone
    · simp only [upsertOverlap, if_pos h, List.map_cons]
      rw [if_pos (by simp [h])]
    · simp only [upsertOverlap, if_neg h, List.map_cons, ih]
      by_cases hm : s.zone ∈ m.map (fun t => t.zone)
      · rw [if_pos hm, if_pos (by simp [hm])]
      · have hnotin : s.zone ∉ o.zone :: m.map (fun t => t.zone) := by
          simp only [List.mem_cons]
          rintro (hc | hc)
          · exact h hc.symm
          · exact hm hc
        rw [if_neg hm, if_neg hnotin]
        simp

lemma sbcOf_upsertOverlap (m : List OverlapZone) (s : SupportZone)
    (r : ResistanceZone) (z : ℤ) :
    sbcOf (upsertOverlap m s r) z =
      sbcOf m z + (if s.zone = z then s.bounceCount else 0) := by
  induction m with
  | nil => by_cases h : s.zone = z <;> simp [upsertOverlap, sbcOf, List.filter_cons, h]
  | cons o m ih =>
    by_cases h : o.zone = s.zone
    · simp only [upsertOverlap, if_pos h, sbcOf_cons]
      by_cases hz : o.zone = z
      · have hsz : s.zone = z := h ▸ hz
        simp only [if_pos hz, if_pos hsz]
        omega
      · have hsz : ¬ s.zone = z := fun hc => hz (h.trans hc)
        simp only [if_neg hz, if_neg hsz]
        omega
    · simp only [upsertOverlap, if_neg h, sbcOf_cons, ih]
      omega

lemma rdcOf_upsertOverlap (m : List OverlapZone) (s : SupportZone)
    (r : ResistanceZone) (z : ℤ) :
    rdcOf (upsertOverlap m s r) z =
      rdcOf m z + (if s.zone = z then r.dropCount else 0) := by
  induction m with
  | nil => by_cases h : s.zone = z <;> simp [upsertOverlap, rdcOf, List.filter_cons, h]
  | cons o m ih =>
    by_cases h : o.zone = s.zone
    · simp only [upsertOverlap, if_pos h, rdcOf_cons]
      by_cases hz : o.zone = z
      · have hsz : s.zone = z := h ▸ hz
        simp only [if_pos hz, if_pos hsz]
        omega
      · have hsz : ¬ s.zone = z := fun hc => hz (h.trans hc)
        simp only [if_neg hz, if_neg hsz]
        omega
    · simp only [upsertOverlap, if_neg h, rdcOf_cons, ih]
      omega

lemma upsertOverlap_type (m : List OverlapZone) (s : SupportZone)
    (r : ResistanceZone) (h : ∀ o ∈ m, o.type = overlapTag) :
    ∀ o ∈ upsertOverlap m s r, o.type = overlapTag := by
  induction m with
  | nil =>
    intro o ho
    rw [List.mem_singleton.mp ho]
  | cons t m ih =>
    intro o ho
    by_cases hc : t.zone = s.zone
    · simp only [upsertOverlap, if_pos hc] at ho
      rcases List.mem_cons.mp ho with rfl | hm
      · exact h t (List.mem_cons_self _ _)
      · exact h o (List.mem_cons_of_mem _ hm)
    · simp only [upsertOverlap, if_neg hc] at ho
      rcases List.mem_cons.mp ho with rfl | hm
      · exact h _ (List.mem_cons_self _ _)
      · exact ih (fun u hu => h u (List.mem_cons_of_mem _ hu)) o hm

lemma highlightAcc_cons (r : ResistanceZone) (rs : List ResistanceZone)
    (m : List OverlapZone) (s : SupportZone) :
    highlightAcc (r :: rs) m s =
      highlightAcc rs (if overlapNear s r then upsertOverlap m s r else m) s := rfl

lemma matchingResistances_cons (r : ResistanceZone) (rs : List ResistanceZone)
    (s : SupportZone) :
    matchingResistances (r :: rs) s =
      if overlapNear s r = true then r :: matchingResistances rs s
      else matchingResistances rs s := by
  by_cases hr : overlapNear s r = true
  · rw [if_pos hr, matchingResistances, List.filter_cons, if_pos (by simp [hr])]
    rfl
  · rw [if_neg hr, matchingResistances, List.filter_cons,
      if_neg (by simp [Bool.not_eq_true] at hr ⊢; exact hr)]
    rfl

lemma highlightAcc_zones_mem (rs : List ResistanceZone) (m : List OverlapZone)
    (s : SupportZone) (z : ℤ) :
    z ∈ (highlightAcc rs m s).map (fun t => t.zone) ↔
      z ∈ m.map (fun t => t.zone) ∨
        (z = s.zone ∧ ∃ r ∈ rs, overlapNear s r = true) := by
  induction rs generalizing m with
  | nil => simp [highlightAcc]
  | cons r rs ih =>
    rw [highlightAcc_cons, ih]
    by_cases hr : overlapNear s r = true
    · rw [if_pos hr, upsertOverlap_zones]
      by_cases hm : s.zone ∈ m.map (fun t => t.zone)
      · rw [if_pos hm]
        constructor
        · rintro (h1 | ⟨rfl, r2, hr2, hn2⟩)
          · exact Or.inl h1
          · exact Or.inr ⟨rfl, r2, List.mem_cons_of_mem _ hr2, hn2⟩
        · rintro (h1 | ⟨rfl, r2, hr2, hn2⟩)
          · exact Or.inl h1
          · exact Or.inl hm
      · rw [if_neg hm, List.mem_append, List.mem_singleton]
        constructor
        · rintro ((h1 | rfl) | ⟨rfl, r2, hr2, hn2⟩)
          · exact Or.inl h1
          · exact Or.inr ⟨rfl, r, List.mem_cons_self _ _, hr⟩
          · exact Or.inr ⟨rfl, r2, List.mem_cons_of_mem _ hr2, hn2⟩
        · rintro (h1 | ⟨rfl, r2, hr2, hn2⟩)
          · exact Or.inl (Or.inl h1)
          · exact Or.inl (Or.inr rfl)
    · rw [if_neg hr]
      constructor
      · rintro (h1 | ⟨rfl, r2, hr2, hn2⟩)
        · exact Or.inl h1
        · exact Or.inr ⟨rfl, r2, List.mem_cons_of_mem _ hr2, hn2⟩
      · rintro (h1 | ⟨rfl, r2, hr2, hn2⟩)
        · exact Or.inl h1
        · rcases List.mem_cons.mp hr2 with rfl | hm2
          · exact absurd hn2 hr
          · exact Or.inr ⟨rfl, r2, hm2, hn2⟩

lemma highlightAcc_nodup (rs : List ResistanceZone) (m : List OverlapZone)
    (s : SupportZone) (h : (m.map (fun t => t.zone)).Nodup) :
    ((highlightAcc rs m s).map (fun t => t.zone)).Nodup := by
  induction rs generalizing m with
  | nil => exact h
  | cons r rs ih =>
    rw [highlightAcc_cons]
    apply ih
    by_cases hr : overlapNear s r = true
    · rw [if_pos hr, upsertOverlap_zones]
      by_cases hm : s.zone ∈ m.map (fun t => t.zone)
      · rw [if_pos hm]
        exact h
      · rw [if_neg hm]
        simp [List.nodup_append, h, hm]
    · rw [if_neg hr]
      exact h

lemma highlightAcc_type (rs : List ResistanceZone) (m : List OverlapZone)
    (s : SupportZone) (h : ∀ o ∈ m, o.type = overlapTag) :
    ∀ o ∈ highlightAcc rs m s, o.type = overlapTag := by
  induction rs generalizing m with
  | nil => exact h
  | cons r rs ih =>
    rw [highlightAcc_cons]
    apply ih
    by_cases hr : overlapNear s r = true
    · rw [if_pos hr]
      exact upsertOverlap_type m s r h
    · rw [if_neg hr]
      exact h

lemma sbcOf_highlightAcc (rs : List ResistanceZone) (m : List OverlapZone)
    (s : SupportZone) (z : ℤ) :
    sbcOf (highlightAcc rs m s) z = sbcOf m z +
      (if s.zone = z then (matchingResistances rs s).length * s.bounceCount
       else 0) := by
  induction rs generalizing m with
  | nil => simp [highlightAcc, matchingResistances]
  | cons r rs ih =>
    rw [highlightAcc_cons, ih, matchingResistances_cons]
    by_cases hr : overlapNear s r = true
    · rw [if_pos hr, if_pos hr, sbcOf_upsertOverlap]
      by_cases hz : s.zone = z
      · simp only [if_pos hz, List.length_cons]
        rw [Nat.succ_mul]
        omega
      · simp only [if_neg hz]
    · rw [if_neg hr, if_neg hr]

lemma rdcOf_highlightAcc (rs : List ResistanceZone) (m : List OverlapZone)
    (s : SupportZone) (z : ℤ) :
    rdcOf (highlightAcc rs m s) z = rdcOf m z +
      (if s.zone = z then
        ((matchingResistances rs s).map (fun r => r.dropCount)).sum
       else 0) := by
  induction rs generalizing m with
  | nil => simp [highlightAcc, matchingResistances]
  | cons r rs ih =>
    rw [highlightAcc_cons, ih, matchingResistances_cons]
    by_cases hr : overlapNear s r = true
    · rw [if_pos hr, if_pos hr, rdcOf_upsertOverlap]
      by_cases hz : s.zone = z
      · simp only [if_pos hz, List.map_cons, List.sum_cons]
        omega
      · simp only [if_neg hz]
    · rw [if_neg hr, if_neg hr]

lemma highlight_foldl_zones_mem (ss : List SupportZone)
    (rs : List ResistanceZone) (m : List OverlapZone) (z : ℤ) :
    z ∈ ((ss.foldl (highlightAcc rs) m).map (fun t => t.zone)) ↔
      z ∈ m.map (fun t => t.zone) ∨
        ∃ s ∈ ss, z = s.zone ∧ ∃ r ∈ rs, overlapNear s r = true := by
  induction ss generalizing m with
  | nil => simp
  | cons s ss ih =>
    rw [List.foldl_cons, ih, highlightAcc_zones_mem]
    constructor
    · rintro ((h1 | ⟨rfl, hex⟩) | ⟨s2, hs2, hz2, hex2⟩)
      · exact Or.inl h1
      · exact Or.inr ⟨s, List.mem_cons_self _ _, rfl, hex⟩
      · exact Or.inr ⟨s2, List.mem_cons_of_mem _ hs2, hz2, hex2⟩
    · rintro (h1 | ⟨s2, hs2, hz2, hex2⟩)
      · exact Or.inl (Or.inl h1)
      · rcases List.mem_cons.mp hs2 with rfl | hm2
        · exact Or.inl (Or.inr ⟨hz2, hex2⟩)
        · exact Or.inr ⟨s2, hm2, hz2, hex2⟩

lemma highlight_foldl_nodup (ss : List SupportZone) (rs : List ResistanceZone)
    (m : List OverlapZone) (h : (m.map (fun t => t.zone)).Nodup) :
    (((ss.foldl (highlightAcc rs) m)).map (fun t => t.zone)).Nodup := by
  induction ss generalizing m with
  | nil => exact h
  | cons s ss ih =>
    rw [List.foldl_cons]
    exact ih _ (highlightAcc_nodup rs m s h)

lemma highlight_foldl_type (ss : List SupportZone) (rs : List ResistanceZone)
    (m : List OverlapZone) (h : ∀ o ∈ m, o.type = overlapTag) :
    ∀ o ∈ ss.foldl (highlightAcc rs) m, o.type = overlapTag := by
  induction ss generalizing m with
  | nil => exact h
  | cons s ss ih =>
    rw [List.foldl_cons]
    exact ih _ (highlightAcc_type rs m s h)

lemma sbcOf_highlight_foldl (ss : List SupportZone) (rs : List ResistanceZone)
    (m : List OverlapZone) (z : ℤ) :
    sbcOf (ss.foldl (highlightAcc rs) m) z = sbcOf m z +
      ((ss.filter (fun s => s.zone = z)).map
        (fun s => (matchingResistances rs s).length * s.bounceCount)).sum := by
  induction ss generalizing m with
  | nil => simp
  | cons s ss ih =>
    rw [List.foldl_cons, ih, sbcOf_highlightAcc, List.filter_cons]
    by_cases hz : s.zone = z
    · rw [if_pos hz, if_pos (show decide (s.zone = z) = true by simp [hz]),
        List.map_cons, List.sum_cons]
      omega
    · rw [if_neg hz, if_neg (show ¬ decide (s.zone = z) = true by simp [hz])]
      omega

lemma rdcOf_highlight_foldl (ss : List SupportZone) (rs : List ResistanceZone)
    (m : List OverlapZone) (z : ℤ) :
    rdcOf (ss.foldl (highlightAcc rs) m) z = rdcOf m z +
      ((ss.filter (fun s => s.zone = z)).map
        (fun s => ((matchingResistances rs s).map (fun r => r.dropCount)).sum)).sum := by
  induction ss generalizing m with
  | nil => simp
  | cons s ss ih =>
    rw [List.foldl_cons, ih, rdcOf_highlightAcc, List.filter_cons]
    by_cases hz : s.zone = z
    · rw [if_pos hz, if_pos (show decide (s.zone = z) = true by simp [hz]),
        List.map_cons, List.sum_cons]
      omega
    · rw [if_neg hz, if_neg (show ¬ decide (s.zone = z) = true by simp [hz])]
      omega

/-- C2: a (support, resistance) pair contributes to the overlap output iff
the relative price difference with the support price as denominator is at
most 5%; one record is emitted per distinct support canonical price that
matched at least one resistance, carrying the support's canonical price,
the support's bounce count and the matching resistance's drop count added
once per matching resistance, the fixed overlap tag, and the records sorted
strictly ascending by numeric price. -/
theorem overlap_contract (ss : List SupportZone) (rs : List ResistanceZone)
    (hss : (ss.map (fun t => t.zone)).Nodup) :
    (∀ s r, overlapNear s r = true ↔
      |zoneVal s.zone - zoneVal r.zone| / zoneVal s.zone ≤ 1 / 20) ∧
    ((highlightedZones ss rs).map (fun o => o.zone)).Nodup ∧
    (∀ s ∈ ss, (∃ r ∈ rs, overlapNear s r = true) →
      ∃ o ∈ highlightedZones ss rs, o.zone = s.zone) ∧
    (∀ o ∈ highlightedZones ss rs, ∃ s ∈ ss, o.zone = s.zone ∧
      matchingResistances rs s ≠ [] ∧
      o.supportBounceCount = (matchingResistances rs s).length * s.bounceCount ∧
      o.resistanceDropCount =
        ((matchingResistances rs s).map (fun r => r.dropCount)).sum ∧
      o.type = overlapTag) ∧
    (highlightedZones ss rs).Pairwise
      (fun a b => zoneVal a.zone < zoneVal b.zone) := by
  have hperm : List.Perm (highlightedZones ss rs) (ss.foldl (highlightAcc rs) []) :=
    List.perm_insertionSort ozLE _
  have hpermmap := hperm.map (fun t => t.zone)
  have hnd0 : ((ss.foldl (highlightAcc rs) []).map (fun t => t.zone)).Nodup :=
    highlight_foldl_nodup ss rs [] (by simp)
  have hnd : ((highlightedZones ss rs).map (fun t => t.zone)).Nodup :=
    hpermmap.nodup_iff.mpr hnd0
  refine ⟨fun s r => by rw [overlapNear, decide_eq_true_iff], hnd, ?_, ?_, ?_⟩
  · intro s hs hex
    have hkey : s.zone ∈ ((ss.foldl (highlightAcc rs) []).map (fun t => t.zone)) := by
      rw [highlight_foldl_zones_mem]
      exact Or.inr ⟨s, hs, rfl, hex⟩
    obtain ⟨o, ho, hoz⟩ := List.mem_map.mp hkey
    exact ⟨o, hperm.mem_iff.mpr ho, hoz⟩
  · intro o ho
    have hof : o ∈ ss.foldl (highlightAcc rs) [] := hperm.mem_iff.mp ho
    have hkey : o.zone ∈ ((ss.foldl (highlightAcc rs) []).map (fun t => t.zone)) :=
      List.mem_map_of_mem _ hof
    rw [highlight_foldl_zones_mem] at hkey
    rcases hkey with h1 | ⟨s, hs, hz, r, hr, hnear⟩
    · simp at h1
    · have hsing := filter_eq_singleton_of_nodup_keys (fun u => u.zone) hss hs
      have hmatch : r ∈ matchingResistances rs s :=
        List.mem_filter.mpr ⟨hr, hnear⟩
      have hsingo := filter_eq_singleton_of_nodup_keys (fun u => u.zone) hnd0 hof
      have hsbc : sbcOf (ss.foldl (highlightAcc rs) []) o.zone =
          o.supportBounceCount := by
        rw [sbcOf, hsingo]
        simp
      have hrdc : rdcOf (ss.foldl (highlightAcc rs) []) o.zone =
          o.resistanceDropCount := by
        rw [rdcOf, hsingo]
        simp
      have hsbc2 := sbcOf_highlight_foldl ss rs [] o.zone
      have hrdc2 := rdcOf_highlight_foldl ss rs [] o.zone
      rw [hsbc] at hsbc2
      rw [hrdc] at hrdc2
      have hfs : ss.filter (fun u => u.zone = o.zone) = [s] := by
        rw [hz]
        exact hsing
      rw [hfs] at hsbc2 hrdc2
      simp only [List.map_cons, List.map_nil, List.sum_cons, List.sum_nil] at hsbc2 hrdc2
      refine ⟨s, hs, hz, List.ne_nil_of_mem hmatch, ?_, ?_, ?_⟩
      · rw [hsbc2]
        simp [sbcOf]
      · rw [hrdc2]
        simp [rdcOf]
      · exact highlight_foldl_type ss rs [] (by simp) o hof
  · have hsorted : (highlightedZones ss rs).Pairwise ozLE :=
      List.sorted_insertionSort ozLE _
    have hsorted2 : (highlightedZones ss rs).Pairwise
        (fun a b => zoneVal a.zone ≤ zoneVal b.zone) :=
      hsorted.imp (fun hab => hab)
    exact oz_pairwise_strict hsorted2 hnd

theorem overlap_contract_witness :
    ((highlightedZones ssEx rsEx).map (fun o => o.zone)).Nodup :=
  (overlap_contract ssEx rsEx (by decide!)).2.1

lemma canon_eq_floor (q : ℚ) : canon q = ⌊q * 100 + 1 / 2⌋ := by
  rw [canon, Rat.floor_def', Rat.floor_def]

lemma canon_close {p q : ℚ} (h : canon p = canon q) : |p - q| < 1 / 100 := by
  rw [canon_eq_floor, canon_eq_floor] at h
  have h1 : ((⌊p * 100 + 1 / 2⌋ : ℤ) : ℚ) ≤ p * 100 + 1 / 2 := Int.floor_le _
  have h2 : p * 100 + 1 / 2 < (⌊p * 100 + 1 / 2⌋ : ℤ) + 1 := Int.lt_floor_add_one _
  have h3 : ((⌊q * 100 + 1 / 2⌋ : ℤ) : ℚ) ≤ q * 100 + 1 / 2 := Int.floor_le _
  have h4 : q * 100 + 1 / 2 < (⌊q * 100 + 1 / 2⌋ : ℤ) + 1 := Int.lt_floor_add_one _
  rw [h] at h1 h2
  rw [abs_sub_lt_iff]
  constructor <;> linarith

lemma ratio_lt_of_close {p q : ℚ} (hq : 1 / 5 ≤ q) (h : |p - q| < 1 / 100) :
    |p - q| / q < 1 / 20 := by
  have hq0 : 0 < q := by linarith
  rw [div_lt_iff₀ hq0]
  linarith

lemma lp_mem {pd : List ℚ} {i : ℕ} (h : i < pd.length) : lp pd i ∈ pd := by
  rw [lp, List.getD_eq_getElem pd 0 h]
  exact List.getElem_mem h

lemma scan_canon_nodup (pd : List ℚ) (hpd : ∀ p ∈ pd, (1 : ℚ) / 5 ≤ p) :
    ((scan pd).supportBases.map (fun j => canon (lp pd j))).Nodup ∧
    ((scan pd).resistanceBases.map (fun j => canon (lp pd j))).Nodup := by
  have key := scan_invariant pd (fun st =>
    (st.checkedSupports = st.supportBases.map (lp pd) ∧
      st.checkedResistances = st.resistanceBases.map (lp pd)) ∧
    (st.supportBases.map (fun j => canon (lp pd j))).Nodup ∧
    (st.resistanceBases.map (fun j => canon (lp pd j))).Nodup)
    ⟨⟨rfl, rfl⟩, by simp [initState], by simp [initState]⟩ ?_
  · exact key.2
  intro s i hi hInv
  obtain ⟨⟨h1, h2⟩, hn1, hn2⟩ := hInv
  rcases scanStep_cases pd s i with ⟨_, he⟩ | ⟨hmin, he⟩
  · rw [he]
    exact ⟨⟨h1, h2⟩, hn1, hn2⟩
  · rw [he]
    have hpi : (1 : ℚ) / 5 ≤ lp pd i := hpd _ (lp_mem hi)
    have hsuppNotin : skipNear s.checkedSupports (lp pd i) = false →
        canon (lp pd i) ∉ s.supportBases.map (fun j => canon (lp pd j)) := by
      intro hskip hc
      obtain ⟨j, hj, hcj⟩ := List.mem_map.mp hc
      have hclose : |lp pd j - lp pd i| < 1 / 100 := canon_close hcj
      have hratio := ratio_lt_of_close hpi hclose
      have htrue : skipNear s.checkedSupports (lp pd i) = true := by
        rw [skipNear, List.any_eq_true]
        refine ⟨lp pd j, ?_, decide_eq_true hratio⟩
        rw [h1]
        exact List.mem_map_of_mem _ hj
      rw [hskip] at htrue
      exact absurd htrue (by simp)
    have hresNotin : skipNear s.checkedResistances (lp pd i) = false →
        canon (lp pd i) ∉ s.resistanceBases.map (fun j => canon (lp pd j)) := by
      intro hskip hc
      obtain ⟨j, hj, hcj⟩ := List.mem_map.mp hc
      have hclose : |lp pd j - lp pd i| < 1 / 100 := canon_close hcj
      have hratio := ratio_lt_of_close hpi hclose
      have htrue : skipNear s.checkedResistances (lp pd i) = true := by
        rw [skipNear, List.any_eq_true]
        refine ⟨lp pd j, ?_, decide_eq_true hratio⟩
        rw [h2]
        exact List.mem_map_of_mem _ hj
      rw [hskip] at htrue
      exact absurd htrue (by simp)
    rcases supportStep_cases pd s i with ⟨hs, _⟩ | ⟨hs, hskipS, _⟩ <;>
      rcases resistanceStep_cases pd (supportStep pd s i) i with ⟨hr, _⟩ | ⟨hr, hskipR, _⟩ <;>
      rw [hr, hs]
    · exact ⟨⟨h1, h2⟩, hn1, hn2⟩
    · rw [hs] at hskipR
      refine ⟨⟨h1, by simp [List.map_append, h2]⟩, hn1, ?_⟩
      rw [List.map_append]
      simp [List.nodup_append, hn2, hresNotin hskipR]
    · refine ⟨⟨by simp [List.map_append, h1], h2⟩, ?_, hn2⟩
      rw [List.map_append]
      simp [List.nodup_append, hn1, hsuppNotin hskipS]
    · rw [hs] at hskipR
      refine ⟨⟨by simp [List.map_append, h1], by simp [List.map_append, h2]⟩, ?_, ?_⟩
      · rw [List.map_append]
        simp [List.nodup_append, hn1, hsuppNotin hskipS]
      · rw [List.map_append]
        simp [List.nodup_append, hn2, hresNotin hskipR]

lemma aggSupportStep_append_of_not_mem {m : List SupportZone} {s : SupportZone}
    (h : s.zone ∉ m.map (fun t => t.zone)) : aggSupportStep m s = m ++ [s] := by
  induction m with
  | nil => rfl
  | cons t m ih =>
    simp only [List.map_cons, List.mem_cons] at h
    push_neg at h
    have hne : ¬ t.zone = s.zone := fun hc => h.1 hc.symm
    simp only [aggSupportStep, if_neg hne, List.cons_append]
    rw [ih h.2]

lemma aggResistanceStep_append_of_not_mem {m : List ResistanceZone}
    {r : ResistanceZone}
    (h : r.zone ∉ m.map (fun t => t.zone)) : aggResistanceStep m r = m ++ [r] := by
  induction m with
  | nil => rfl
  | cons t m ih =>
    simp only [List.map_cons, List.mem_cons] at h
    push_neg at h
    have hne : ¬ t.zone = r.zone := fun hc => h.1 hc.symm
    simp only [aggResistanceStep, if_neg hne, List.cons_append]
    rw [ih h.2]

lemma foldl_aggSupportStep_disjoint (l : List SupportZone) :
    ∀ acc : List SupportZone, (l.map (fun t => t.zone)).Nodup →
      (∀ z, z ∈ l.map (fun t => t.zone) → z ∉ acc.map (fun t => t.zone)) →
      l.foldl aggSupportStep acc = acc ++ l := by
  induction l with
  | nil =>
    intro acc _ _
    simp
  | cons s l ih =>
    intro acc hnd hdisj
    rw [List.map_cons, List.nodup_cons] at hnd
    rw [List.foldl_cons,
      aggSupportStep_append_of_not_mem (hdisj s.zone (by simp)),
      ih (acc ++ [s]) hnd.2 ?_]
    · simp
    · intro z hz
      rw [List.map_append, List.mem_append]
      rintro (hc | hc)
      · exact hdisj z (by simp [hz]) hc
      · simp at hc
        rw [hc] at hz
        exact hnd.1 hz

lemma foldl_aggResistanceStep_disjoint (l : List ResistanceZone) :
    ∀ acc : List ResistanceZone, (l.map (fun t => t.zone)).Nodup →
      (∀ z, z ∈ l.map (fun t => t.zone) → z ∉ acc.map (fun t => t.zone)) →
      l.foldl aggResistanceStep acc = acc ++ l := by
  induction l with
  | nil =>
    intro acc _ _
    simp
  | cons r l ih =>
    intro acc hnd hdisj
    rw [List.map_cons, List.nodup_cons] at hnd
    rw [List.foldl_cons,
      aggResistanceStep_append_of_not_mem (hdisj r.zone (by simp)),
      ih (acc ++ [r]) hnd.2 ?_]
    · simp
    · intro z hz
      rw [List.map_append, List.mem_append]
      rintro (hc | hc)
      · exact hdisj z (by simp [hz]) hc
      · simp at hc
        rw [hc] at hz
        exact hnd.1 hz

/-- C10: when every observed price is at least 0.2, the 5% proximity dedup
already prevents two raw zones from sharing a two-decimal canonical price
(two prices with equal canonical price differ by less than a cent, which at
such price levels is within the 5% tolerance), so the aggregator's merging
branch is never taken: each aggregated collection is just the raw
collection re-sorted ascending. -/
theorem dedup_vacuous_aggregation (pd : List ℚ)
    (hpd : ∀ p ∈ pd, (1 : ℚ) / 5 ≤ p) :
    ((supportZones pd).map (fun t => t.zone)).Nodup ∧
    ((resistanceZones pd).map (fun t => t.zone)).Nodup ∧
    aggregatedSupportZones pd = List.insertionSort szLE (supportZones pd) ∧
    aggregatedResistanceZones pd = List.insertionSort rzLE (resistanceZones pd) := by
  obtain ⟨hn1, hn2⟩ := scan_canon_nodup pd hpd
  have hz1 : ((supportZones pd).map (fun t => t.zone)).Nodup := by
    rw [supportZones, List.map_map]
    exact hn1
  have hz2 : ((resistanceZones pd).map (fun t => t.zone)).Nodup := by
    rw [resistanceZones, List.map_map]
    exact hn2
  refine ⟨hz1, hz2, ?_, ?_⟩
  · rw [aggregatedSupportZones,
      foldl_aggSupportStep_disjoint (supportZones pd) [] hz1 (by simp)]
    rw [List.nil_append]
  · rw [aggregatedResistanceZones,
      foldl_aggResistanceStep_disjoint (resistanceZones pd) [] hz2 (by simp)]
    rw [List.nil_append]

theorem dedup_vacuous_aggregation_witness :
    ((supportZones pd0).map (fun t => t.zone)).Nodup :=
  (dedup_vacuous_aggregation pd0 (by decide!)).1

end SupportFunction
